import Mathlib

/-!
Shallow embedding of the scrape/index/ask service in src/fg/mk.py.

Conventions of the embedding:
* Python strings are Lean `String`s (lists of characters in `String.data`).
* `str.replace` (used in the citation rewriting loop) is `pyReplace`:
  left-to-right, non-overlapping, global literal replacement, with Python
  special behaviour on an empty pattern.
* The two boilerplate regexes have the shape `LITERALPRE.*?LITERALSUF` and are
  applied with `re.sub(pattern, "", content, flags=re.DOTALL)`.  `reSub`
  models exactly that: repeatedly find the leftmost position where the literal
  head matches and the literal tail occurs afterwards, lazily end the match at
  the first such tail, delete the matched span, and continue after it.
* The crawler is an oracle `fetch : String → Except String String`
  (`crawler.run(url).markdown`, or a raised exception).
* The temporary-file handoff is a tiny file system `FS` (list of file
  contents); writing a fresh transient file appends and returns its index.
* The hosted QA platform is a `Remote` state (created assistants and vector
  stores) plus an `Outcomes` oracle saying which remote call succeeds or
  raises; the code under test only ever appends resources or updates the
  resource it just created.
* HTTP exception propagation is modelled with `Except String`, carrying the
  detail message.
-/

namespace Mk

/-! ### Python `str.replace` -/

/-- One fuel-indexed scan step of Python `str.replace`: at each position, if
`pat` matches here, emit `rep` and skip the match, else keep the character.
Fuel at least `s.length` makes the scan run to completion. -/
def replaceFuel (pat rep : List Char) : Nat → List Char → List Char
  | _, [] => []
  | 0, s => s
  | fuel + 1, c :: cs =>
    if pat.isPrefixOf (c :: cs) then
      rep ++ replaceFuel pat rep fuel (cs.drop (pat.length - 1))
    else
      c :: replaceFuel pat rep fuel cs

/-- Python `str.replace` on character lists, for a non-empty pattern. -/
def pyRepL (pat rep s : List Char) : List Char :=
  replaceFuel pat rep s.length s

/-- Python `s.replace(pat, rep)`: global literal replacement.  An empty
pattern inserts `rep` before every character and at the end, as in Python. -/
def pyReplace (s pat rep : String) : String :=
  if pat.data = [] then
    ⟨rep.data ++ (s.data.map (fun c => c :: rep.data)).flatten⟩
  else
    ⟨pyRepL pat.data rep.data s.data⟩

/-! ### `re.sub(pre .*? suf, "", s, flags=re.DOTALL)` for literal `pre`/`suf` -/

/-- Drop everything up to and through the first occurrence of `suf`;
`none` when `suf` does not occur. -/
def dropThroughFirst (suf : List Char) : List Char → Option (List Char)
  | [] => if suf.isEmpty then some [] else none
  | c :: cs =>
    if suf.isPrefixOf (c :: cs) then some (cs.drop (suf.length - 1))
    else dropThroughFirst suf cs

/-- Find the leftmost, lazily-ended match of `pre.*?suf` (DOTALL): returns the
text before the match and the text after it, or `none` when there is no
match.  At each candidate start the head `pre` must match and the tail `suf`
must occur afterwards; the match ends at the first such tail. -/
def reSubOnce (pre suf : List Char) : List Char → Option (List Char × List Char)
  | [] => none
  | c :: cs =>
    if pre.isPrefixOf (c :: cs) then
      match dropThroughFirst suf (cs.drop (pre.length - 1)) with
      | some rest => some ([], rest)
      | none =>
        match reSubOnce pre suf cs with
        | some (kept, rest) => some (c :: kept, rest)
        | none => none
    else
      match reSubOnce pre suf cs with
      | some (kept, rest) => some (c :: kept, rest)
      | none => none

/-- Fuel-indexed repetition of `reSubOnce`, deleting every match in turn. -/
def reSubFuel (pre suf : List Char) : Nat → List Char → List Char
  | 0, s => s
  | fuel + 1, s =>
    match reSubOnce pre suf s with
    | none => s
    | some (kept, rest) => kept ++ reSubFuel pre suf fuel rest

/-- `re.sub(pre .*? suf, "", s, flags=re.DOTALL)` with literal `pre`, `suf`:
delete every (leftmost, lazy, non-overlapping) match.  For a non-empty `pre`
each deletion strictly shrinks the text, so `s.length` fuel is enough. -/
def reSub (pre suf s : List Char) : List Char :=
  reSubFuel pre suf s.length s

/-- The pattern `pre.*?suf` has a match in `s`. -/
def HasMatch (pre suf s : List Char) : Prop :=
  ∃ x y z, s = x ++ pre ++ y ++ suf ++ z

/-! ### The program: request validation -/

/-- The `urls` field of `URLRequest`: `Union[List[str], str]`. -/
inductive UrlsField where
  | single (s : String)
  | list (l : List String)
  deriving DecidableEq

/-- The `ensure_list` field validator: a single string is promoted to a
one-element list, a list is passed through unchanged. -/
def ensure_list : UrlsField → List String
  | .single s => [s]
  | .list l => l

/-! ### The program: scraping and cleanup -/

/-- Literal head of the first boilerplate pattern. -/
def pat1pre : String := "##  Subscribe to our emails"

/-- Literal tail of the first boilerplate pattern (`\*` and `\.` are the
escaped literal characters). -/
def pat1suf : String := "* Opens in a new window."

/-- Literal head of the second boilerplate pattern. -/
def pat2pre : String := "Skip to content"

/-- Literal tail of the second boilerplate pattern. -/
def pat2suf : String := "View cart Check out  Continue shopping"

/-- The `patterns` list of `scrape_urls`, as (head, tail) pairs of the
`pre.*?suf` shapes. -/
def patterns : List (String × String) :=
  [(pat1pre, pat1suf), (pat2pre, pat2suf)]

/-- The per-URL cleanup loop: `for pattern in patterns: content =
re.sub(pattern, "", content, flags=re.DOTALL)`. -/
def cleanContent (s : String) : String :=
  patterns.foldl (fun acc p => ⟨reSub p.1.data p.2.data acc.data⟩) s

/-- The fetch-and-clean loop of `scrape_urls`: fetch each URL in order, clean
it, abort on the first fetch failure with the code's error message. -/
def scrapeList (fetch : String → Except String String) :
    List String → Except String (List String)
  | [] => .ok []
  | u :: rest =>
    match fetch u with
    | .error e => .error ("Failed to scrape " ++ u ++ ": " ++ e)
    | .ok md =>
      match scrapeList fetch rest with
      | .error e => .error e
      | .ok others => .ok (cleanContent md :: others)

/-- The transient-file store: contents of the temporary files written so far.
A path is an index into this list. -/
structure FS where
  files : List String
  deriving DecidableEq

/-- `scrape_urls`: scrape and clean every URL, join the results with the fixed
separator, write the combined document to a fresh transient file and return
its path (with the updated file store). -/
def scrape_urls (fetch : String → Except String String) (urls : List String)
    (fs : FS) : Except String (FS × Nat) :=
  match scrapeList fetch urls with
  | .error e => .error e
  | .ok contents =>
    .ok (⟨fs.files ++ [String.intercalate "\n\n---\n\n" contents]⟩, fs.files.length)

/-! ### The program: corpus assembly against the remote platform -/

/-- Remote state of the hosted platform: a fresh-id counter, the created
assistants `(id, bound vector-store ids)` and the created vector stores
`(id, uploaded documents)`. -/
structure Remote where
  nextId : Nat
  assistants : List (Nat × List Nat)
  stores : List (Nat × List String)
  deriving DecidableEq

/-- Success or raised error of each remote call made by
`create_assistant_and_vectorstore`, in program order. -/
structure Outcomes where
  assistantCreate : Except String Unit
  storeCreate : Except String Unit
  upload : Except String Unit
  assistantUpdate : Except String Unit

/-- Remote ids already allocated are below the fresh-id counter. -/
def WFRemote (r : Remote) : Prop :=
  (∀ p ∈ r.assistants, p.1 < r.nextId) ∧ (∀ p ∈ r.stores, p.1 < r.nextId)

/-- `create_assistant_and_vectorstore`: create an assistant, create a vector
store, upload the document into the store and poll, then bind the store to
the assistant.  A failing call aborts with the platform error and leaves
the remote state exactly as the preceding calls built it. -/
def create_assistant_and_vectorstore (oc : Outcomes) (content : String)
    (r : Remote) : Except String (Nat × Nat) × Remote :=
  match oc.assistantCreate with
  | .error e => (.error e, r)
  | .ok _ =>
    let aid := r.nextId
    let r1 : Remote := ⟨r.nextId + 1, r.assistants ++ [(aid, [])], r.stores⟩
    match oc.storeCreate with
    | .error e => (.error e, r1)
    | .ok _ =>
      let sid := r1.nextId
      let r2 : Remote := ⟨r1.nextId + 1, r1.assistants, r1.stores ++ [(sid, [])]⟩
      match oc.upload with
      | .error e => (.error e, r2)
      | .ok _ =>
        let r3 : Remote := ⟨r2.nextId, r2.assistants,
          r2.stores.map fun p => if p.1 = sid then (p.1, p.2 ++ [content]) else p⟩
        match oc.assistantUpdate with
        | .error e => (.error e, r3)
        | .ok _ =>
          let r4 : Remote := ⟨r3.nextId,
            r3.assistants.map fun p => if p.1 = aid then (p.1, [sid]) else p,
            r3.stores⟩
          (.ok (aid, sid), r4)

/-- The `/scrape_and_upsert` endpoint body: scrape into a transient file, read
it back, run corpus assembly, and answer with the success message and both
ids; any raised error is surfaced as the error response. -/
def scrape_and_upsert (fetch : String → Except String String) (oc : Outcomes)
    (urls : List String) (fs : FS) (r : Remote) :
    Except String (String × Nat × Nat) × FS × Remote :=
  match scrape_urls fetch urls fs with
  | .error e => (.error e, fs, r)
  | .ok (fs', path) =>
    let content := (fs'.files[path]?).getD ""
    match create_assistant_and_vectorstore oc content r with
    | (.error e, r') => (.error e, fs', r')
    | (.ok ids, r') =>
      (.ok ("Successfully scraped content from " ++ toString urls.length ++
        " URLs and created assistant and vector store.", ids), fs', r')

/-! ### The program: answer post-processing of `execute_rag_pipeline` -/

/-- One citation annotation of the response message: its literal matched text
and, when present, the cited file id. -/
structure AnnSpan where
  text : String
  file_citation : Option Nat
  deriving DecidableEq

/-- The rewriting loop of `execute_rag_pipeline`: for each annotation (with
its zero-based index) replace the literal text of the annotation in the current
answer by the bracket marker, and, only when the annotation carries a file
citation, append a reference line with the resolved filename. -/
def ragLoop (retrieve : Nat → String) :
    Nat → String → List String → List AnnSpan → String × List String
  | _, value, cits, [] => (value, cits)
  | i, value, cits, a :: rest =>
    let value' := pyReplace value a.text ("[" ++ toString i ++ "]")
    let cits' :=
      match a.file_citation with
      | some fid => cits ++ ["[" ++ toString i ++ "] " ++ retrieve fid]
      | none => cits
    ragLoop retrieve (i + 1) value' cits' rest

/-- The answer assembly of `execute_rag_pipeline` from the raw message text:
run the rewriting loop, then return the rewritten value, a blank line, and
the newline-joined reference list. -/
def execute_rag_pipeline (retrieve : Nat → String) (value : String)
    (anns : List AnnSpan) : String :=
  let res := ragLoop retrieve 0 value [] anns
  res.1 ++ "\n\n" ++ String.intercalate "\n" res.2

/-- The value component of the loop, as iterated global replacement of the
annotation texts (independent of the citation data). -/
def rewriteFrom : Nat → String → List String → String
  | _, v, [] => v
  | i, v, t :: ts => rewriteFrom (i + 1) (pyReplace v t ("[" ++ toString i ++ "]")) ts

/-- Modelled from the spec: the trailing reference list the spec promises for
a raw answer whose annotations all carry file citations — one line per
annotation, in order, each being the bracket index followed by the resolved
source filename. -/
def specReferenceLines (retrieve : Nat → String) : Nat → List AnnSpan → List String
  | _, [] => []
  | i, a :: rest =>
    ("[" ++ toString i ++ "] " ++ retrieve ((a.file_citation).getD 0)) ::
      specReferenceLines retrieve (i + 1) rest

/-! ### Helper lemmas: `pyRepL` -/

theorem isPre_iff : ∀ (p s : List Char), p.isPrefixOf s = true ↔ ∃ t, s = p ++ t
  | [], s => by simp [List.isPrefixOf]
  | a :: as, [] => by simp [List.isPrefixOf]
  | a :: as, b :: bs => by
    simp only [List.isPrefixOf, Bool.and_eq_true, beq_iff_eq, isPre_iff as bs,
      List.cons_append, List.cons.injEq]
    constructor
    · rintro ⟨rfl, t, rfl⟩
      exact ⟨t, rfl, rfl⟩
    · rintro ⟨t, rfl, rfl⟩
      exact ⟨rfl, t, rfl⟩

theorem replaceFuel_eq (pat rep : List Char) :
    ∀ (fuel : Nat) (s : List Char), s.length ≤ fuel →
      replaceFuel pat rep fuel s = pyRepL pat rep s := by
  intro fuel
  induction fuel using Nat.strong_induction_on with
  | _ fuel ih =>
    intro s hs
    match fuel, s with
    | fuel, [] => cases fuel <;> rfl
    | 0, c :: cs => simp at hs
    | f + 1, c :: cs =>
      have hcs : cs.length ≤ f := by
        simp only [List.length_cons] at hs
        omega
      have hdrop : (cs.drop (pat.length - 1)).length ≤ cs.length := by
        simp [List.length_drop]
      have hrepl : pyRepL pat rep (c :: cs) = replaceFuel pat rep (cs.length + 1) (c :: cs) := rfl
      rw [hrepl]
      simp only [replaceFuel]
      rw [ih f (by omega) _ (le_trans hdrop hcs),
        ih cs.length (by omega) _ hdrop,
        ih f (by omega) cs hcs,
        ih cs.length (by omega) cs le_rfl]

theorem pyRepL_nil (pat rep : List Char) : pyRepL pat rep [] = [] := rfl

theorem pyRepL_cons (pat rep : List Char) (c : Char) (cs : List Char) :
    pyRepL pat rep (c :: cs) =
      if pat.isPrefixOf (c :: cs) then
        rep ++ pyRepL pat rep (cs.drop (pat.length - 1))
      else c :: pyRepL pat rep cs := by
  have hrepl : pyRepL pat rep (c :: cs) = replaceFuel pat rep (cs.length + 1) (c :: cs) := rfl
  rw [hrepl]
  simp only [replaceFuel]
  rw [replaceFuel_eq pat rep cs.length (cs.drop (pat.length - 1)) (by simp [List.length_drop]),
    replaceFuel_eq pat rep cs.length cs le_rfl]

theorem pyRepL_append_left (pat rep : List Char) (hpat : pat ≠ []) :
    ∀ (x t : List Char), (∀ c ∈ x, c ∉ pat) →
      pyRepL pat rep (x ++ t) = x ++ pyRepL pat rep t := by
  intro x
  induction x with
  | nil => intro t _; simp
  | cons c x' ih =>
    intro t hx
    rw [List.cons_append, pyRepL_cons]
    have hnp : ¬ pat.isPrefixOf (c :: (x' ++ t)) = true := by
      intro hp
      rcases (isPre_iff pat _).mp hp with ⟨u, hu⟩
      cases pat with
      | nil => exact hpat rfl
      | cons p ps =>
        rw [List.cons_append] at hu
        injection hu with h1 _
        exact hx c (List.mem_cons_self c x') (by rw [h1]; exact List.mem_cons_self p ps)
    rw [if_neg hnp, ih t (fun c hc => hx c (List.mem_cons_of_mem _ hc))]
    simp

theorem pyRepL_append_pat (pat rep : List Char) (hpat : pat ≠ []) (t : List Char) :
    pyRepL pat rep (pat ++ t) = rep ++ pyRepL pat rep t := by
  cases pat with
  | nil => exact absurd rfl hpat
  | cons p ps =>
    rw [List.cons_append, pyRepL_cons]
    have hp : (p :: ps).isPrefixOf (p :: (ps ++ t)) = true :=
      (isPre_iff _ _).mpr ⟨t, by simp⟩
    rw [if_pos hp]
    have hlen : (p :: ps).length - 1 = ps.length := by simp
    rw [hlen, List.drop_left]

theorem pyRepL_disjoint (pat rep : List Char) (hpat : pat ≠ [])
    (x : List Char) (hx : ∀ c ∈ x, c ∉ pat) : pyRepL pat rep x = x := by
  have h := pyRepL_append_left pat rep hpat x [] hx
  simpa [pyRepL_nil] using h

/-! ### Helper lemmas: `reSub` -/

theorem dropThroughFirst_some (suf : List Char) (hsuf : suf ≠ []) :
    ∀ (t r : List Char), dropThroughFirst suf t = some r → ∃ y, t = y ++ suf ++ r := by
  intro t
  induction t with
  | nil =>
    intro r h
    simp [dropThroughFirst, List.isEmpty_iff, hsuf] at h
  | cons c cs ih =>
    intro r h
    simp only [dropThroughFirst] at h
    by_cases hp : suf.isPrefixOf (c :: cs) = true
    · rw [if_pos hp] at h
      injection h with h
      rcases (isPre_iff suf _).mp hp with ⟨u, hu⟩
      cases suf with
      | nil => exact absurd rfl hsuf
      | cons sc ss =>
        refine ⟨[], ?_⟩
        rw [List.cons_append] at hu
        injection hu with h1 h2
        have hu2 : u = cs.drop ss.length := by rw [h2, List.drop_left]
        have hlen : (sc :: ss).length - 1 = ss.length := by simp
        rw [hlen] at h
        rw [List.nil_append, h1, h2, hu2, h]
        simp
    · rw [if_neg hp] at h
      rcases ih r h with ⟨y, hy⟩
      exact ⟨c :: y, by simp [hy]⟩

theorem dropThroughFirst_append (suf : List Char) (hsuf : suf ≠ []) :
    ∀ (y z : List Char), (∀ c ∈ y, c ∉ suf) →
      dropThroughFirst suf (y ++ suf ++ z) = some z := by
  intro y
  induction y with
  | nil =>
    intro z _
    cases suf with
    | nil => exact absurd rfl hsuf
    | cons sc ss =>
      have hshape : ([] : List Char) ++ (sc :: ss) ++ z = sc :: (ss ++ z) := by simp
      rw [hshape]
      simp only [dropThroughFirst]
      have hp : (sc :: ss).isPrefixOf (sc :: (ss ++ z)) = true :=
        (isPre_iff _ _).mpr ⟨z, by simp⟩
      rw [if_pos hp]
      have hlen : (sc :: ss).length - 1 = ss.length := by simp
      rw [hlen, List.drop_left]
  | cons c y' ih =>
    intro z hy
    have hnp : ¬ suf.isPrefixOf (c :: (y' ++ suf ++ z)) = true := by
      intro hp
      rcases (isPre_iff suf _).mp hp with ⟨u, hu⟩
      cases suf with
      | nil => exact hsuf rfl
      | cons sc ss =>
        rw [List.cons_append] at hu
        injection hu with h1 _
        exact hy c (List.mem_cons_self c y') (by rw [h1]; exact List.mem_cons_self sc ss)
    have hshape : (c :: y') ++ suf ++ z = c :: (y' ++ suf ++ z) := by simp
    rw [hshape]
    simp only [dropThroughFirst]
    rw [if_neg hnp]
    exact ih z (fun c hc => hy c (List.mem_cons_of_mem _ hc))

theorem reSubOnce_some (pre suf : List Char) (hpre : pre ≠ []) (hsuf : suf ≠ []) :
    ∀ (s k r : List Char), reSubOnce pre suf s = some (k, r) →
      ∃ y, s = k ++ pre ++ y ++ suf ++ r := by
  intro s
  induction s with
  | nil => intro k r h; simp [reSubOnce] at h
  | cons c cs ih =>
    intro k r h
    simp only [reSubOnce] at h
    by_cases hp : pre.isPrefixOf (c :: cs) = true
    · rw [if_pos hp] at h
      rcases (isPre_iff pre _).mp hp with ⟨u, hu⟩
      have hu2 : u = cs.drop (pre.length - 1) := by
        cases pre with
        | nil => exact absurd rfl hpre
        | cons pc pps =>
          rw [List.cons_append] at hu
          injection hu with h1 h2
          have hlen : (pc :: pps).length - 1 = pps.length := by simp
          rw [hlen, h2, List.drop_left]
      cases hdt : dropThroughFirst suf (cs.drop (pre.length - 1)) with
      | some rest =>
        rw [hdt] at h
        have h' : some (([] : List Char), rest) = some (k, r) := h
        have hkr : ([] : List Char) = k ∧ rest = r := by
          injection h' with h''
          exact ⟨congrArg Prod.fst h'', congrArg Prod.snd h''⟩
        obtain ⟨rfl, rfl⟩ := hkr
        rcases dropThroughFirst_some suf hsuf _ _ hdt with ⟨y, hy⟩
        refine ⟨y, ?_⟩
        rw [hu, hu2, hy]
        simp [List.append_assoc]
      | none =>
        rw [hdt] at h
        cases hro : reSubOnce pre suf cs with
        | some p =>
          obtain ⟨kept, rest⟩ := p
          rw [hro] at h
          have h' : some (c :: kept, rest) = some (k, r) := h
          have hkr : c :: kept = k ∧ rest = r := by
            injection h' with h''
            exact ⟨congrArg Prod.fst h'', congrArg Prod.snd h''⟩
          obtain ⟨rfl, rfl⟩ := hkr
          rcases ih kept rest hro with ⟨y, hy⟩
          exact ⟨y, by simp [hy]⟩
        | none =>
          rw [hro] at h
          exact absurd h (by simp)
    · rw [if_neg hp] at h
      cases hro : reSubOnce pre suf cs with
      | some p =>
        obtain ⟨kept, rest⟩ := p
        rw [hro] at h
        have h' : some (c :: kept, rest) = some (k, r) := h
        have hkr : c :: kept = k ∧ rest = r := by
          injection h' with h''
          exact ⟨congrArg Prod.fst h'', congrArg Prod.snd h''⟩
        obtain ⟨rfl, rfl⟩ := hkr
        rcases ih kept rest hro with ⟨y, hy⟩
        exact ⟨y, by simp [hy]⟩
      | none =>
        rw [hro] at h
        exact absurd h (by simp)

theorem reSubOnce_append (pre suf : List Char) (hpre : pre ≠ []) (hsuf : suf ≠ []) :
    ∀ (x y z : List Char), (∀ c ∈ x, c ∉ pre) → (∀ c ∈ y, c ∉ suf) →
      reSubOnce pre suf (x ++ pre ++ y ++ suf ++ z) = some (x, z) := by
  intro x
  induction x with
  | nil =>
    intro y z _ hy
    cases pre with
    | nil => exact absurd rfl hpre
    | cons pc pps =>
      have hshape : ([] : List Char) ++ (pc :: pps) ++ y ++ suf ++ z =
          pc :: (pps ++ (y ++ suf ++ z)) := by simp
      rw [hshape]
      simp only [reSubOnce]
      have hp : (pc :: pps).isPrefixOf (pc :: (pps ++ (y ++ suf ++ z))) = true :=
        (isPre_iff _ _).mpr ⟨y ++ suf ++ z, by simp⟩
      rw [if_pos hp]
      have hlen : (pc :: pps).length - 1 = pps.length := by simp
      rw [hlen, List.drop_left, dropThroughFirst_append suf hsuf y z hy]
  | cons c x' ih =>
    intro y z hx hy
    have hnp : ¬ pre.isPrefixOf (c :: (x' ++ pre ++ y ++ suf ++ z)) = true := by
      intro hp
      rcases (isPre_iff pre _).mp hp with ⟨u, hu⟩
      cases pre with
      | nil => exact hpre rfl
      | cons pc pps =>
        rw [List.cons_append] at hu
        injection hu with h1 _
        exact hx c (List.mem_cons_self c x') (by rw [h1]; exact List.mem_cons_self pc pps)
    have hshape : (c :: x') ++ pre ++ y ++ suf ++ z =
        c :: (x' ++ pre ++ y ++ suf ++ z) := by simp
    rw [hshape]
    simp only [reSubOnce]
    rw [if_neg hnp, ih y z (fun c hc => hx c (List.mem_cons_of_mem _ hc)) hy]

theorem reSubOnce_none (pre suf : List Char) (hpre : pre ≠ []) (hsuf : suf ≠ [])
    (s : List Char) (h : ¬ HasMatch pre suf s) : reSubOnce pre suf s = none := by
  cases hro : reSubOnce pre suf s with
  | none => rfl
  | some p =>
    obtain ⟨k, r⟩ := p
    rcases reSubOnce_some pre suf hpre hsuf s k r hro with ⟨y, hy⟩
    exact absurd ⟨k, y, r, hy⟩ h

theorem reSubOnce_shrinks (pre suf : List Char) (hpre : pre ≠ []) (hsuf : suf ≠ [])
    (s k r : List Char) (h : reSubOnce pre suf s = some (k, r)) :
    k.length + r.length < s.length := by
  rcases reSubOnce_some pre suf hpre hsuf s k r h with ⟨y, hy⟩
  subst hy
  have hplen : 0 < pre.length := List.length_pos.mpr hpre
  simp [List.length_append]
  omega

theorem reSubFuel_eq (pre suf : List Char) (hpre : pre ≠ []) (hsuf : suf ≠ []) :
    ∀ (fuel : Nat) (s : List Char), s.length ≤ fuel →
      reSubFuel pre suf fuel s = reSub pre suf s := by
  intro fuel
  induction fuel using Nat.strong_induction_on with
  | _ fuel ih =>
    intro s hs
    match fuel with
    | 0 =>
      have hnil : s = [] := List.eq_nil_of_length_eq_zero (Nat.le_zero.mp hs)
      subst hnil
      rfl
    | f + 1 =>
      cases s with
      | nil => rfl
      | cons c cs =>
        have hflen : reSub pre suf (c :: cs) = reSubFuel pre suf (cs.length + 1) (c :: cs) := rfl
        rw [hflen]
        simp only [reSubFuel]
        cases hro : reSubOnce pre suf (c :: cs) with
        | none => rfl
        | some p =>
          obtain ⟨k, r⟩ := p
          have hlt := reSubOnce_shrinks pre suf hpre hsuf _ k r hro
          simp only [List.length_cons] at hlt hs
          show k ++ reSubFuel pre suf f r = k ++ reSubFuel pre suf cs.length r
          rw [ih f (by omega) r (by omega), ih cs.length (by omega) r (by omega)]

theorem reSub_of_none (pre suf : List Char) (s : List Char)
    (h : reSubOnce pre suf s = none) : reSub pre suf s = s := by
  cases s with
  | nil => rfl
  | cons c cs =>
    show reSubFuel pre suf (cs.length + 1) (c :: cs) = c :: cs
    simp only [reSubFuel]
    rw [h]

theorem reSub_of_some (pre suf : List Char) (hpre : pre ≠ []) (hsuf : suf ≠ [])
    (s k r : List Char) (h : reSubOnce pre suf s = some (k, r)) :
    reSub pre suf s = k ++ reSub pre suf r := by
  cases s with
  | nil => simp [reSubOnce] at h
  | cons c cs =>
    show reSubFuel pre suf (cs.length + 1) (c :: cs) = k ++ reSub pre suf r
    simp only [reSubFuel]
    rw [h]
    have hlt := reSubOnce_shrinks pre suf hpre hsuf _ k r h
    simp only [List.length_cons] at hlt
    show k ++ reSubFuel pre suf cs.length r = k ++ reSub pre suf r
    rw [reSubFuel_eq pre suf hpre hsuf cs.length r (by omega)]

theorem reSub_no_match (pre suf : List Char) (hpre : pre ≠ []) (hsuf : suf ≠ [])
    (s : List Char) (h : ¬ HasMatch pre suf s) : reSub pre suf s = s :=
  reSub_of_none pre suf s (reSubOnce_none pre suf hpre hsuf s h)

theorem reSub_single (pre suf : List Char) (hpre : pre ≠ []) (hsuf : suf ≠ [])
    (x y z : List Char) (hx : ∀ c ∈ x, c ∉ pre) (hy : ∀ c ∈ y, c ∉ suf)
    (hz : ¬ HasMatch pre suf z) :
    reSub pre suf (x ++ pre ++ y ++ suf ++ z) = x ++ z := by
  rw [reSub_of_some pre suf hpre hsuf _ x z (reSubOnce_append pre suf hpre hsuf x y z hx hy),
    reSub_no_match pre suf hpre hsuf z hz]

theorem hasMatch_length (pre suf s : List Char) (h : HasMatch pre suf s) :
    pre.length + suf.length ≤ s.length := by
  rcases h with ⟨x, y, z, rfl⟩
  simp
  omega

/-! ### Helper lemmas: the rewriting loop and the scraping loop -/

theorem ragLoop_fst (retrieve : Nat → String) :
    ∀ (anns : List AnnSpan) (i : Nat) (v : String) (c : List String),
      (ragLoop retrieve i v c anns).1 = rewriteFrom i v (anns.map AnnSpan.text) := by
  intro anns
  induction anns with
  | nil => intro i v c; rfl
  | cons a rest ih =>
    intro i v c
    cases hfc : a.file_citation with
    | some fid =>
      simp only [ragLoop, hfc, List.map_cons, rewriteFrom]
      exact ih _ _ _
    | none =>
      simp only [ragLoop, hfc, List.map_cons, rewriteFrom]
      exact ih _ _ _

theorem ragLoop_len (retrieve : Nat → String) :
    ∀ (anns : List AnnSpan) (i : Nat) (v : String) (c : List String),
      (ragLoop retrieve i v c anns).2.length =
        c.length + anns.countP (fun a => (a.file_citation).isSome) := by
  intro anns
  induction anns with
  | nil => intro i v c; simp [ragLoop]
  | cons a rest ih =>
    intro i v c
    cases hfc : a.file_citation with
    | some fid =>
      simp only [ragLoop, hfc]
      rw [ih]
      simp [List.countP_cons, hfc]
      omega
    | none =>
      simp only [ragLoop, hfc]
      rw [ih]
      simp [List.countP_cons, hfc]

theorem ragLoop_cits (retrieve : Nat → String) :
    ∀ (anns : List AnnSpan) (i : Nat) (v : String) (c : List String),
      (∀ a ∈ anns, (a.file_citation).isSome = true) →
      (ragLoop retrieve i v c anns).2 = c ++ specReferenceLines retrieve i anns := by
  intro anns
  induction anns with
  | nil => intro i v c _; simp [ragLoop, specReferenceLines]
  | cons a rest ih =>
    intro i v c hall
    have ha := hall a (List.mem_cons_self a rest)
    cases hfc : a.file_citation with
    | none => rw [hfc] at ha; simp at ha
    | some fid =>
      simp only [ragLoop, hfc, specReferenceLines]
      rw [ih _ _ _ (fun b hb => hall b (List.mem_cons_of_mem _ hb))]
      simp [hfc]

theorem specReferenceLines_length (retrieve : Nat → String) :
    ∀ (anns : List AnnSpan) (i : Nat),
      (specReferenceLines retrieve i anns).length = anns.length := by
  intro anns
  induction anns with
  | nil => intro i; rfl
  | cons a rest ih => intro i; simp [specReferenceLines, ih]

theorem scrapeList_ok (fetch : String → Except String String) (g : String → String) :
    ∀ (urls : List String), (∀ u ∈ urls, fetch u = .ok (g u)) →
      scrapeList fetch urls = .ok (urls.map fun u => cleanContent (g u)) := by
  intro urls
  induction urls with
  | nil => intro _; rfl
  | cons u rest ih =>
    intro h
    have hu := h u (List.mem_cons_self u rest)
    have hrest := ih (fun v hv => h v (List.mem_cons_of_mem _ hv))
    simp [scrapeList, hu, hrest]

theorem scrapeList_err (fetch : String → Except String String) :
    ∀ (urls : List String), (∃ u ∈ urls, ∃ e, fetch u = .error e) →
      ∃ u e, u ∈ urls ∧ fetch u = .error e ∧
        scrapeList fetch urls = .error ("Failed to scrape " ++ u ++ ": " ++ e) := by
  intro urls
  induction urls with
  | nil => rintro ⟨u, hu, _⟩; simp at hu
  | cons u rest ih =>
    rintro ⟨w, hw, e, he⟩
    cases hfu : fetch u with
    | error eu =>
      exact ⟨u, eu, List.mem_cons_self u rest, hfu, by simp [scrapeList, hfu]⟩
    | ok md =>
      have hwrest : w ∈ rest := by
        cases List.mem_cons.mp hw with
        | inl heq => subst heq; rw [hfu] at he; exact absurd he (by simp)
        | inr h' => exact h'
      rcases ih ⟨w, hwrest, e, he⟩ with ⟨u', e', hu', hfe', hsl⟩
      refine ⟨u', e', List.mem_cons_of_mem _ hu', hfe', ?_⟩
      simp [scrapeList, hfu, hsl]

theorem map_if_id (sid : Nat) (doc : String) :
    ∀ (l : List (Nat × List String)), (∀ p ∈ l, p.1 ≠ sid) →
      (l.map fun p => if p.1 = sid then (p.1, p.2 ++ [doc]) else p) = l := by
  intro l
  induction l with
  | nil => intro _; rfl
  | cons p ps ih =>
    intro h
    simp only [List.map_cons]
    rw [if_neg (h p (List.mem_cons_self p ps)),
      ih (fun q hq => h q (List.mem_cons_of_mem _ hq))]

theorem cleanContent_data (s : String) :
    cleanContent s = ⟨reSub pat2pre.data pat2suf.data (reSub pat1pre.data pat1suf.data s.data)⟩ :=
  rfl

/-! ### Claims -/

/-- C4: for every request whose urls field is a single string s, the
acquisition step behaves identically to a request whose urls field is the
one-element list [s]: validation normalizes both to the same URL sequence,
and the acquire-and-index endpoint then behaves identically on both. -/
theorem claim_c4 (s : String) (fetch : String → Except String String)
    (oc : Outcomes) (fs : FS) (r : Remote) :
    ensure_list (.single s) = ensure_list (.list [s]) ∧
    scrape_and_upsert fetch oc (ensure_list (.single s)) fs r =
      scrape_and_upsert fetch oc (ensure_list (.list [s])) fs r :=
  ⟨rfl, rfl⟩

/-- C6: for a response message with zero annotation spans, the rewriting loop
leaves the answer untouched and produces no reference lines, and
`execute_rag_pipeline` returns the raw answer text followed by the separator
of the (empty) trailing reference section: no bracket markers and no
reference lines are added. -/
theorem claim_c6 (retrieve : Nat → String) (value : String) :
    ragLoop retrieve 0 value [] [] = (value, []) ∧
    execute_rag_pipeline retrieve value [] = value ++ "\n\n" := by
  refine ⟨rfl, ?_⟩
  show value ++ "\n\n" ++ String.intercalate "\n" [] = value ++ "\n\n"
  have h : String.intercalate "\n" [] = "" := rfl
  rw [h, String.append_empty]

/-- C7 counterexample: the claim says no request with an empty URL sequence
reaches the scraping step, but the empty-list request passes validation
unchanged, reaches `scrape_urls` (which writes an empty document), and the
acquire-and-index endpoint succeeds on it, creating assistant 0 and vector
store 1. -/
theorem claim_c7_cex :
    ensure_list (.list []) = [] ∧
    scrape_urls (fun _ => .ok "") [] ⟨[]⟩ = .ok (⟨[""]⟩, 0) ∧
    (scrape_and_upsert (fun _ => .ok "") ⟨.ok (), .ok (), .ok (), .ok ()⟩
        (ensure_list (.list [])) ⟨[]⟩ ⟨0, [], []⟩).1 =
      .ok ("Successfully scraped content from 0 URLs and created assistant and vector store.",
        0, 1) :=
  ⟨rfl, rfl, rfl⟩

/-- C7 (amended): every accepted request is normalized to an ordered sequence
of URL strings — a single string becomes a one-element list and a list passes
through unchanged — and the normalized sequence is non-empty for every
request except the empty-list request, whose emptiness is not rejected. -/
theorem claim_c7_amended :
    (∀ s, ensure_list (.single s) = [s]) ∧
    (∀ l, ensure_list (.list l) = l) ∧
    (∀ fld, fld ≠ .list [] → ensure_list fld ≠ []) := by
  refine ⟨fun s => rfl, fun l => rfl, ?_⟩
  intro fld h
  cases fld with
  | single s => simp [ensure_list]
  | list l =>
    cases l with
    | nil => exact absurd rfl h
    | cons a as => simp [ensure_list]

/-- C7 witness: a single-string request normalizes to a non-empty sequence. -/
theorem claim_c7_wit : ensure_list (.single "https://a") ≠ [] :=
  claim_c7_amended.2.2 (.single "https://a") (by decide)

/-- C9: a reference line is appended only for annotations that carry a file
citation (the reference-list length is the count of such annotations), while
the answer rewriting happens for every annotation regardless of citation
data; the final conjuncts exhibit an annotation without a file citation whose
text is still replaced by a bracket marker but which contributes no
reference line. -/
theorem claim_c9 (retrieve : Nat → String) (i : Nat) (v : String)
    (c : List String) (anns : List AnnSpan) :
    (ragLoop retrieve i v c anns).2.length =
      c.length + anns.countP (fun a => (a.file_citation).isSome) ∧
    (ragLoop retrieve i v c anns).1 = rewriteFrom i v (anns.map AnnSpan.text) ∧
    (ragLoop retrieve 0 "q" [] [⟨"q", none⟩]).1 = "[0]" ∧
    (ragLoop retrieve 0 "q" [] [⟨"q", none⟩]).2 = [] :=
  ⟨ragLoop_len retrieve anns i v c, ragLoop_fst retrieve anns i v c, rfl, rfl⟩

/-- C1 counterexample: a raw answer with N = 1 annotation span whose
annotation carries no file citation and whose text occurs twice produces a
reference list with 0 lines (not 1) and an answer in which the marker [0]
appears twice, refuting the claimed exactly-N markers and exactly-N
reference lines. -/
theorem claim_c1_cex :
    (ragLoop (fun _ => "file.md") 0 "x and x" [] [⟨"x", none⟩]).2.length ≠ 1 ∧
    (ragLoop (fun _ => "file.md") 0 "x and x" [] [⟨"x", none⟩]).1 = "[0] and [0]" ∧
    (ragLoop (fun _ => "file.md") 0 "x and x" [] [⟨"x", none⟩]).2 = [] := by
  refine ⟨?_, rfl, rfl⟩
  decide

/-- C1 (amended): for a raw answer with N annotation spans each carrying a
file citation, the rewritten answer is obtained by globally replacing, in
annotation order, the literal text of each annotation with its bracket marker
(so a marker appears once per occurrence of the text, possibly zero or
several times), and the trailing reference list contains exactly N lines,
the i-th being the bracket index [i] followed by the resolved filename of
the i-th annotation. -/
theorem claim_c1_amended (retrieve : Nat → String) (value : String)
    (anns : List AnnSpan) (hall : ∀ a ∈ anns, (a.file_citation).isSome = true) :
    (ragLoop retrieve 0 value [] anns).2 = specReferenceLines retrieve 0 anns ∧
    (ragLoop retrieve 0 value [] anns).2.length = anns.length ∧
    (ragLoop retrieve 0 value [] anns).1 = rewriteFrom 0 value (anns.map AnnSpan.text) ∧
    execute_rag_pipeline retrieve value anns =
      rewriteFrom 0 value (anns.map AnnSpan.text) ++ "\n\n" ++
        String.intercalate "\n" (specReferenceLines retrieve 0 anns) := by
  have h2 := ragLoop_cits retrieve anns 0 value [] hall
  simp only [List.nil_append] at h2
  refine ⟨h2, ?_, ragLoop_fst retrieve anns 0 value [], ?_⟩
  · rw [h2, specReferenceLines_length]
  · show (ragLoop retrieve 0 value [] anns).1 ++ "\n\n" ++
      String.intercalate "\n" (ragLoop retrieve 0 value [] anns).2 = _
    rw [h2, ragLoop_fst]

/-- C1 witness: amended claim at a concrete answer with one cited span. -/
theorem claim_c1_wit :
    (ragLoop (fun _ => "f.md") 0 "v @c" [] [⟨"@c", some 2⟩]).2 =
      specReferenceLines (fun _ => "f.md") 0 [⟨"@c", some 2⟩] ∧
    (ragLoop (fun _ => "f.md") 0 "v @c" [] [⟨"@c", some 2⟩]).2.length =
      ([⟨"@c", some 2⟩] : List AnnSpan).length ∧
    (ragLoop (fun _ => "f.md") 0 "v @c" [] [⟨"@c", some 2⟩]).1 =
      rewriteFrom 0 "v @c" (([⟨"@c", some 2⟩] : List AnnSpan).map AnnSpan.text) ∧
    execute_rag_pipeline (fun _ => "f.md") "v @c" [⟨"@c", some 2⟩] =
      rewriteFrom 0 "v @c" (([⟨"@c", some 2⟩] : List AnnSpan).map AnnSpan.text) ++ "\n\n" ++
        String.intercalate "\n" (specReferenceLines (fun _ => "f.md") 0 [⟨"@c", some 2⟩]) :=
  claim_c1_amended (fun _ => "f.md") "v @c" [⟨"@c", some 2⟩] (by decide)

/-- C10: the bracket-marker substitution is a global literal replacement:
when the text of an annotation occurs at several places (here twice, with
surrounding text sharing no character with it), every occurrence is replaced
by the marker, not only the span of the annotation itself. -/
theorem claim_c10 (retrieve : Nat → String) (a : AnnSpan) (s1 s2 s3 : List Char)
    (hne : a.text.data ≠ [])
    (h1 : ∀ c ∈ s1, c ∉ a.text.data) (h2 : ∀ c ∈ s2, c ∉ a.text.data)
    (h3 : ∀ c ∈ s3, c ∉ a.text.data) :
    (ragLoop retrieve 0 ⟨s1 ++ a.text.data ++ s2 ++ a.text.data ++ s3⟩ [] [a]).1 =
      ⟨s1 ++ "[0]".data ++ s2 ++ "[0]".data ++ s3⟩ := by
  rw [ragLoop_fst]
  simp only [List.map_cons, List.map_nil, rewriteFrom]
  have hm : ("[" ++ toString (0 : Nat) ++ "]" : String) = "[0]" := rfl
  rw [hm]
  simp only [pyReplace]
  rw [if_neg hne]
  refine congrArg String.mk ?_
  have e1 : s1 ++ a.text.data ++ s2 ++ a.text.data ++ s3 =
      s1 ++ (a.text.data ++ (s2 ++ (a.text.data ++ s3))) := by simp [List.append_assoc]
  show pyRepL a.text.data "[0]".data (s1 ++ a.text.data ++ s2 ++ a.text.data ++ s3) = _
  rw [e1, pyRepL_append_left _ _ hne s1 _ h1, pyRepL_append_pat _ _ hne,
    pyRepL_append_left _ _ hne s2 _ h2, pyRepL_append_pat _ _ hne,
    pyRepL_disjoint _ _ hne s3 h3]
  simp [List.append_assoc]

/-- C10 witness: both occurrences of the annotation text are replaced. -/
theorem claim_c10_wit :
    (ragLoop (fun _ => "f.md") 0
        ⟨"A".data ++ ("@t" : String).data ++ "B".data ++ ("@t" : String).data ++ "C".data⟩ []
        [⟨"@t", some 3⟩]).1 =
      ⟨"A".data ++ "[0]".data ++ "B".data ++ "[0]".data ++ "C".data⟩ :=
  claim_c10 (fun _ => "f.md") ⟨"@t", some 3⟩ "A".data "B".data "C".data (by decide)
    (by decide) (by decide) (by decide)

/-- C2: when every fetch in the batch succeeds, `scrape_urls` assembles the
document as the cleaned per-URL texts joined by the fixed separator in input
order, writes exactly that document to a fresh transient file, and returns
that file's path. -/
theorem claim_c2 (fetch : String → Except String String) (g : String → String)
    (urls : List String) (fs : FS) (h : ∀ u ∈ urls, fetch u = .ok (g u)) :
    scrape_urls fetch urls fs =
      .ok (⟨fs.files ++
        [String.intercalate "\n\n---\n\n" (urls.map fun u => cleanContent (g u))]⟩,
        fs.files.length) ∧
    (fs.files ++
        [String.intercalate "\n\n---\n\n" (urls.map fun u => cleanContent (g u))])[fs.files.length]? =
      some (String.intercalate "\n\n---\n\n" (urls.map fun u => cleanContent (g u))) := by
  constructor
  · simp [scrape_urls, scrapeList_ok fetch g urls h]
  · exact List.getElem?_concat_length _ _

/-- C2 witness: a concrete successful two-URL batch. -/
theorem claim_c2_wit :
    scrape_urls (fun u => .ok (u ++ "!")) ["ua", "ub"] ⟨[]⟩ =
      .ok (⟨[] ++
        [String.intercalate "\n\n---\n\n" (["ua", "ub"].map fun u => cleanContent (u ++ "!"))]⟩,
        ([] : List String).length) ∧
    (([] : List String) ++
        [String.intercalate "\n\n---\n\n" (["ua", "ub"].map fun u => cleanContent (u ++ "!"))])[([] : List String).length]? =
      some (String.intercalate "\n\n---\n\n" (["ua", "ub"].map fun u => cleanContent (u ++ "!"))) :=
  claim_c2 (fun u => .ok (u ++ "!")) (fun u => u ++ "!") ["ua", "ub"] ⟨[]⟩ (fun _ _ => rfl)

/-- C3: if the fetch of any URL in the batch fails, the whole request aborts
with an error message naming the offending URL, the file store is unchanged
(no document is produced) and the remote state is unchanged (no assistant or
vector store is created, no indexing call occurs). -/
theorem claim_c3 (fetch : String → Except String String) (oc : Outcomes)
    (urls : List String) (fs : FS) (r : Remote)
    (h : ∃ u ∈ urls, ∃ e, fetch u = .error e) :
    ∃ u e, u ∈ urls ∧ fetch u = .error e ∧
      scrape_and_upsert fetch oc urls fs r =
        (.error ("Failed to scrape " ++ u ++ ": " ++ e), fs, r) := by
  rcases scrapeList_err fetch urls h with ⟨u, e, hu, hfe, hsl⟩
  exact ⟨u, e, hu, hfe, by simp [scrape_and_upsert, scrape_urls, hsl]⟩

/-- C3 witness: a two-URL batch whose second fetch fails. -/
theorem claim_c3_wit :
    ∃ u e, u ∈ ["https://good", "https://bad"] ∧
      (fun v => if v = "https://bad" then Except.error "boom" else Except.ok "md") u =
        .error e ∧
      scrape_and_upsert
          (fun v => if v = "https://bad" then Except.error "boom" else Except.ok "md")
          ⟨.ok (), .ok (), .ok (), .ok ()⟩ ["https://good", "https://bad"] ⟨[]⟩ ⟨0, [], []⟩ =
        (.error ("Failed to scrape " ++ u ++ ": " ++ e), ⟨[]⟩, ⟨0, [], []⟩) :=
  claim_c3 _ _ _ _ _ ⟨"https://bad", by decide, "boom", rfl⟩

/-- C5: applying a boilerplate-removal pattern to a text containing one
well-separated match removes exactly the matched span (head, lazy middle and
tail) and leaves the surrounding text untouched; and on a text containing no
match of either pattern the whole cleanup step is the identity. -/
theorem claim_c5 :
    (∀ pp ∈ patterns, ∀ x y z : List Char,
      (∀ c ∈ x, c ∉ pp.1.data) → (∀ c ∈ y, c ∉ pp.2.data) →
      ¬ HasMatch pp.1.data pp.2.data z →
      reSub pp.1.data pp.2.data (x ++ pp.1.data ++ y ++ pp.2.data ++ z) = x ++ z) ∧
    (∀ s : String, ¬ HasMatch pat1pre.data pat1suf.data s.data →
      ¬ HasMatch pat2pre.data pat2suf.data s.data → cleanContent s = s) := by
  constructor
  · intro pp hpp x y z hx hy hz
    have hmem : pp = (pat1pre, pat1suf) ∨ pp = (pat2pre, pat2suf) := by
      simpa [patterns] using hpp
    have hne1 : pp.1.data ≠ [] := by rcases hmem with rfl | rfl <;> decide
    have hne2 : pp.2.data ≠ [] := by rcases hmem with rfl | rfl <;> decide
    exact reSub_single pp.1.data pp.2.data hne1 hne2 x y z hx hy hz
  · intro s h1 h2
    rw [cleanContent_data, reSub_no_match _ _ (by decide) (by decide) _ h1,
      reSub_no_match _ _ (by decide) (by decide) _ h2]

/-- C5 witness: removal of one concrete well-separated match of the first
pattern, and identity of the cleanup on a text without matches. -/
theorem claim_c5_wit :
    reSub pat1pre.data pat1suf.data
        ("q".data ++ pat1pre.data ++ "z".data ++ pat1suf.data ++ "q".data) =
      "q".data ++ "q".data ∧
    cleanContent "hello" = "hello" :=
  ⟨claim_c5.1 (pat1pre, pat1suf) (by simp [patterns]) "q".data "z".data "q".data
      (by decide) (by decide)
      (fun hm => absurd (hasMatch_length _ _ _ hm) (by decide)),
    claim_c5.2 "hello"
      (fun hm => absurd (hasMatch_length _ _ _ hm) (by decide))
      (fun hm => absurd (hasMatch_length _ _ _ hm) (by decide))⟩

/-- C8: when any remote call of corpus assembly fails after an earlier remote
resource was created (vector-store creation fails after the assistant was
created, upload fails after assistant and store creation, or binding fails
after upload), the whole request aborts with the platform error and the
remote state is exactly the state reached before the failing call: the
already-created resources are still present, with no deletion or other
modification of pre-existing resources. -/
theorem claim_c8 (fetch : String → Except String String) (g : String → String)
    (oc : Outcomes) (urls : List String) (fs : FS) (r : Remote) (e : String)
    (hf : ∀ u ∈ urls, fetch u = .ok (g u)) (hwf : WFRemote r)
    (hac : oc.assistantCreate = .ok ()) :
    (oc.storeCreate = .error e →
      scrape_and_upsert fetch oc urls fs r =
        (.error e,
          ⟨fs.files ++
            [String.intercalate "\n\n---\n\n" (urls.map fun u => cleanContent (g u))]⟩,
          ⟨r.nextId + 1, r.assistants ++ [(r.nextId, [])], r.stores⟩)) ∧
    (oc.storeCreate = .ok () → oc.upload = .error e →
      scrape_and_upsert fetch oc urls fs r =
        (.error e,
          ⟨fs.files ++
            [String.intercalate "\n\n---\n\n" (urls.map fun u => cleanContent (g u))]⟩,
          ⟨r.nextId + 2, r.assistants ++ [(r.nextId, [])],
            r.stores ++ [(r.nextId + 1, [])]⟩)) ∧
    (oc.storeCreate = .ok () → oc.upload = .ok () → oc.assistantUpdate = .error e →
      scrape_and_upsert fetch oc urls fs r =
        (.error e,
          ⟨fs.files ++
            [String.intercalate "\n\n---\n\n" (urls.map fun u => cleanContent (g u))]⟩,
          ⟨r.nextId + 2, r.assistants ++ [(r.nextId, [])],
            r.stores ++ [(r.nextId + 1,
              [String.intercalate "\n\n---\n\n" (urls.map fun u => cleanContent (g u))])]⟩)) := by
  have hsl := scrapeList_ok fetch g urls hf
  refine ⟨?_, ?_, ?_⟩
  · intro hsc
    simp [scrape_and_upsert, scrape_urls, hsl, List.getElem?_concat_length,
      create_assistant_and_vectorstore, hac, hsc]
  · intro hsc hup
    simp [scrape_and_upsert, scrape_urls, hsl, List.getElem?_concat_length,
      create_assistant_and_vectorstore, hac, hsc, hup]
  · intro hsc hup hau
    have hmap : ((r.stores ++ [(r.nextId + 1, [])]).map fun p : Nat × List String =>
        if p.1 = r.nextId + 1 then
          (p.1, p.2 ++ [String.intercalate "\n\n---\n\n" (urls.map fun u => cleanContent (g u))])
        else p) =
        r.stores ++ [(r.nextId + 1,
          [String.intercalate "\n\n---\n\n" (urls.map fun u => cleanContent (g u))])] := by
      rw [List.map_append,
        map_if_id (r.nextId + 1) _ r.stores (fun p hp => by have := hwf.2 p hp; omega)]
      simp
    simp [scrape_and_upsert, scrape_urls, hsl, List.getElem?_concat_length,
      create_assistant_and_vectorstore, hac, hsc, hup, hau, hmap]

/-- C8 witness: upload fails after assistant 0 and store 1 were created; both
survive and the request errors. -/
theorem claim_c8_wit :
    scrape_and_upsert (fun _ => .ok "hello")
        ⟨.ok (), .ok (), .error "boom", .ok ()⟩ ["u"] ⟨[]⟩ ⟨0, [], []⟩ =
      (.error "boom",
        ⟨([] : List String) ++
          [String.intercalate "\n\n---\n\n" (["u"].map fun _ => cleanContent "hello")]⟩,
        ⟨0 + 2, ([] : List (Nat × List Nat)) ++ [(0, [])],
          ([] : List (Nat × List String)) ++ [(0 + 1, [])]⟩) :=
  (claim_c8 (fun _ => .ok "hello") (fun _ => "hello")
    ⟨.ok (), .ok (), .error "boom", .ok ()⟩ ["u"] ⟨[]⟩ ⟨0, [], []⟩ "boom"
    (fun _ _ => rfl) ⟨by simp, by simp⟩ rfl).2.1 rfl rfl

end Mk
